import Mathlib

/-!
# Verification of `bufrng` (`src/src/lib.rs`)

`BufRng` is a "random" number generator that yields pre-determined values from
a buffer and yields `0`s once the buffer is exhausted.

Embedding notes:
* The Rust struct holds `iter: slice::Iter<'a, u8>`.  A slice iterator is a
  read-only view plus a position, so we model it as the full byte list `data`
  together with a cursor `pos` pointing at the next unread byte.  Bytes (`u8`)
  are `Fin 256`; draw results are `Nat` (the Rust code widens each byte to
  `u32`, and all arithmetic below stays far away from overflow, which we prove).
* `next_u64` and `fill_bytes` delegate to `rand_core::impls` helpers whose
  source is not part of this repository; those two bodies are modelled from the
  spec (see their doc comments).
* Rust's `&mut self` methods are modelled as functions returning the produced
  value together with the successor state.
-/

/-- The buffer-backed RNG: a read-only byte buffer plus a forward cursor.
Mirrors `struct BufRng<'a> { iter: slice::Iter<'a, u8> }`, with the slice
iterator represented as the underlying slice and the current position. -/
structure BufRng where
  data : List (Fin 256)
  pos : Nat
  deriving DecidableEq, Repr

/-- `BufRng::new(data)`: a generator positioned at the start of `data`. -/
def BufRng.new (data : List (Fin 256)) : BufRng :=
  { data := data, pos := 0 }

/-- `fn next(&mut self) -> u32`: the next unread byte widened to `u32`
(`self.iter.next().cloned().unwrap_or(0).into()`), or `0` once the iterator is
exhausted.  The cursor advances only when a byte was actually read. -/
def BufRng.next (s : BufRng) : Nat × BufRng :=
  match s.data[s.pos]? with
  | some b => (b.val, { data := s.data, pos := s.pos + 1 })
  | none => (0, s)

/-- `fn next_u32(&mut self) -> u32`: four consecutive single-byte draws
`a, b, c, d`, packed as `(a << 24) | (b << 16) | (c << 8) | d`. -/
def BufRng.next_u32 (s : BufRng) : Nat × BufRng :=
  let a := s.next
  let b := a.2.next
  let c := b.2.next
  let d := c.2.next
  ((a.1 <<< 24) ||| (b.1 <<< 16) ||| (c.1 <<< 8) ||| d.1, d.2)

/-- Modelled from the spec: `next_u64` delegates to
`rand_core::impls::next_u64_via_u32`, whose code is not in this repository.
The spec prescribes "high word from the first 32-bit draw, low word from the
second". -/
def BufRng.next_u64 (s : BufRng) : Nat × BufRng :=
  let hi := s.next_u32
  let lo := hi.2.next_u32
  ((hi.1 <<< 32) ||| lo.1, lo.2)

/-- Modelled from the spec: the big-endian decomposition of one 32-bit draw
into its four constituent bytes, "in the same order used to build it" (the
byte packed at bits 24..31 comes first). -/
def toBytesBE (x : Nat) : List Nat :=
  [x / 2 ^ 24 % 256, x / 2 ^ 16 % 256, x / 2 ^ 8 % 256, x % 256]

/-- Modelled from the spec: `fill_bytes` delegates to
`rand_core::impls::fill_bytes_via_next`, whose code is not in this repository.
The spec prescribes: each 32-bit draw is decomposed into its constituent bytes
(in the same order used to build it) and written sequentially into the
destination until it is full; a final partial draw is truncated to the
remaining space.  The destination is modelled by its length `n`; the result is
the list of bytes written. -/
def BufRng.fill_bytes (s : BufRng) (n : Nat) : List Nat × BufRng :=
  if _h0 : n = 0 then ([], s)
  else if _h4 : n ≤ 4 then ((toBytesBE s.next_u32.1).take n, s.next_u32.2)
  else
    let r := s.next_u32.2.fill_bytes (n - 4)
    (toBytesBE s.next_u32.1 ++ r.1, r.2)
  termination_by n
  decreasing_by omega

/-- `fn try_fill_bytes(&mut self, dest) -> Result<(), Error>`:
`Ok(self.fill_bytes(dest))`.  The `Result` is modelled with `Except`; the
written bytes and successor state are carried inside `Except.ok`. -/
def BufRng.try_fill_bytes (s : BufRng) (n : Nat) : Except String (List Nat × BufRng) :=
  Except.ok (s.fill_bytes n)

/-- The generator is exhausted once the cursor has consumed every byte. -/
def BufRng.exhausted (s : BufRng) : Prop :=
  s.data.length ≤ s.pos

instance (s : BufRng) : Decidable s.exhausted :=
  inferInstanceAs (Decidable (s.data.length ≤ s.pos))

/-- One draw operation of the public `RngCore` interface. -/
inductive Op where
  | u32 : Op
  | u64 : Op
  | fill : Nat → Op
  | tryFill : Nat → Op
  deriving DecidableEq, Repr

/-- Run one interface operation, returning its output (as the list of numbers
produced) and the successor state. -/
def BufRng.step (s : BufRng) : Op → List Nat × BufRng
  | Op.u32 => ([s.next_u32.1], s.next_u32.2)
  | Op.u64 => ([s.next_u64.1], s.next_u64.2)
  | Op.fill n => s.fill_bytes n
  | Op.tryFill n =>
    match s.try_fill_bytes n with
    | Except.ok r => r
    | Except.error _ => ([], s)

/-- Run a sequence of interface operations, collecting each operation's
output. -/
def BufRng.run (s : BufRng) : List Op → List (List Nat) × BufRng
  | [] => ([], s)
  | op :: ops =>
    let o := s.step op
    let r := o.2.run ops
    (o.1 :: r.1, r.2)

/-! ## Basic lemmas about the single-byte draw -/

theorem BufRng.next_eq_of_lt (s : BufRng) (h : s.pos < s.data.length) :
    s.next = ((s.data.get ⟨s.pos, h⟩).val, { data := s.data, pos := s.pos + 1 }) := by
  unfold BufRng.next
  rw [List.getElem?_eq_getElem h]
  rfl

theorem BufRng.next_eq_of_ge (s : BufRng) (h : s.data.length ≤ s.pos) :
    s.next = (0, s) := by
  unfold BufRng.next
  rw [List.getElem?_eq_none h]

theorem BufRng.next_data (s : BufRng) : s.next.2.data = s.data := by
  rcases Nat.lt_or_ge s.pos s.data.length with h | h
  · rw [s.next_eq_of_lt h]
  · rw [s.next_eq_of_ge h]

theorem BufRng.next_pos (s : BufRng) :
    s.next.2.pos = if s.pos < s.data.length then s.pos + 1 else s.pos := by
  rcases Nat.lt_or_ge s.pos s.data.length with h | h
  · rw [s.next_eq_of_lt h, if_pos h]
  · rw [s.next_eq_of_ge h, if_neg (Nat.not_lt.mpr h)]

theorem BufRng.next_fst_le (s : BufRng) : s.next.1 ≤ 255 := by
  rcases Nat.lt_or_ge s.pos s.data.length with h | h
  · rw [s.next_eq_of_lt h]
    exact Nat.le_of_lt_succ (s.data.get ⟨s.pos, h⟩).isLt
  · rw [s.next_eq_of_ge h]
    exact Nat.zero_le _

theorem BufRng.next_pos_mono (s : BufRng) : s.pos ≤ s.next.2.pos := by
  rw [s.next_pos]
  split <;> omega

theorem BufRng.next_pos_le (s : BufRng) (h : s.pos ≤ s.data.length) :
    s.next.2.pos ≤ s.data.length := by
  rw [s.next_pos]
  split <;> omega

/-! ## Lemmas about the 32-bit draw -/

theorem BufRng.next_u32_snd (s : BufRng) :
    s.next_u32.2 = s.next.2.next.2.next.2.next.2 := rfl

theorem BufRng.next_u32_fst (s : BufRng) :
    s.next_u32.1 = (s.next.1 <<< 24) ||| (s.next.2.next.1 <<< 16) |||
      (s.next.2.next.2.next.1 <<< 8) ||| s.next.2.next.2.next.2.next.1 := rfl

theorem BufRng.next_u32_data (s : BufRng) : s.next_u32.2.data = s.data := by
  rw [s.next_u32_snd]
  simp only [BufRng.next_data]

theorem BufRng.next_u32_pos_mono (s : BufRng) : s.pos ≤ s.next_u32.2.pos := by
  rw [s.next_u32_snd]
  calc s.pos ≤ s.next.2.pos := s.next_pos_mono
    _ ≤ s.next.2.next.2.pos := BufRng.next_pos_mono _
    _ ≤ s.next.2.next.2.next.2.pos := BufRng.next_pos_mono _
    _ ≤ s.next.2.next.2.next.2.next.2.pos := BufRng.next_pos_mono _

theorem BufRng.next_inv (s : BufRng) (h : s.pos ≤ s.data.length) :
    s.next.2.pos ≤ s.next.2.data.length := by
  rw [s.next_data]
  exact s.next_pos_le h

theorem BufRng.next_u32_pos_le (s : BufRng) (h : s.pos ≤ s.data.length) :
    s.next_u32.2.pos ≤ s.data.length := by
  rw [s.next_u32_snd]
  have h1 := s.next_inv h
  have h2 := s.next.2.next_inv h1
  have h3 := s.next.2.next.2.next_inv h2
  have h4 := s.next.2.next.2.next.2.next_inv h3
  simp only [BufRng.next_data] at h4
  exact h4

/-- Bitwise OR with a shifted value is addition when the low part fits below
the shift amount (the byte lanes are disjoint). -/
theorem shiftLeft_or_eq_add (x n : Nat) {y : Nat} (h : y < 2 ^ n) :
    x <<< n ||| y = x * 2 ^ n + y := by
  rw [Nat.shiftLeft_eq, Nat.mul_comm x (2 ^ n)]
  exact (Nat.mul_add_lt_is_or h x).symm

theorem BufRng.next_u32_fst_eq_sum (s : BufRng) :
    s.next_u32.1 = s.next.1 * 2 ^ 24 + s.next.2.next.1 * 2 ^ 16 +
      s.next.2.next.2.next.1 * 2 ^ 8 + s.next.2.next.2.next.2.next.1 := by
  have ha := s.next_fst_le
  have hb := s.next.2.next_fst_le
  have hc := s.next.2.next.2.next_fst_le
  have hd := s.next.2.next.2.next.2.next_fst_le
  rw [s.next_u32_fst, Nat.or_assoc, Nat.or_assoc,
    shiftLeft_or_eq_add _ 8 (by omega),
    shiftLeft_or_eq_add _ 16 (by omega),
    shiftLeft_or_eq_add _ 24 (by omega)]
  omega

theorem BufRng.next_u32_fst_lt (s : BufRng) : s.next_u32.1 < 2 ^ 32 := by
  have ha := s.next_fst_le
  have hb := s.next.2.next_fst_le
  have hc := s.next.2.next.2.next_fst_le
  have hd := s.next.2.next.2.next.2.next_fst_le
  rw [s.next_u32_fst_eq_sum]
  omega

/-! ## Claim theorems: packing of the first 32-bit draw -/

/-- C1: for every buffer whose first four bytes are `a`, `b`, `c`, `d` (in
read order), the first call to `next_u32` returns
`(a <<< 24) ||| (b <<< 16) ||| (c <<< 8) ||| d`: the first byte read becomes
the most significant byte (big-endian packing). -/
theorem first_next_u32_packs_big_endian (a b c d : Fin 256) (rest : List (Fin 256)) :
    (BufRng.new (a :: b :: c :: d :: rest)).next_u32.1
      = (a.val <<< 24) ||| (b.val <<< 16) ||| (c.val <<< 8) ||| d.val := by
  simp [BufRng.new, BufRng.next_u32, BufRng.next]

theorem BufRng.next_u64_fst (s : BufRng) :
    s.next_u64.1 = (s.next_u32.1 <<< 32) ||| s.next_u32.2.next_u32.1 := by
  simp only [BufRng.next_u64]

theorem BufRng.next_u64_snd (s : BufRng) :
    s.next_u64.2 = s.next_u32.2.next_u32.2 := by
  simp only [BufRng.next_u64]

/-! ## Claim theorems: 64-bit composition and byte-lane arithmetic -/

/-- C2: `next_u64` returns the 64-bit value whose high 32-bit word is the
result of the first of two consecutive `next_u32` draws and whose low word is
the result of the second, and its state effect is exactly the two consecutive
draws. -/
theorem next_u64_high_first_low_second (s : BufRng) :
    s.next_u64.1 < 2 ^ 64 ∧
    s.next_u64.1 / 2 ^ 32 = s.next_u32.1 ∧
    s.next_u64.1 % 2 ^ 32 = s.next_u32.2.next_u32.1 ∧
    s.next_u64.2 = s.next_u32.2.next_u32.2 := by
  have hhi := s.next_u32_fst_lt
  have hlo := s.next_u32.2.next_u32_fst_lt
  have he : s.next_u64.1 = s.next_u32.1 * 2 ^ 32 + s.next_u32.2.next_u32.1 := by
    rw [s.next_u64_fst, shiftLeft_or_eq_add _ 32 hlo]
  have p32 : (2 : Nat) ^ 32 = 4294967296 := by norm_num
  have p64 : (2 : Nat) ^ 64 = 18446744073709551616 := by norm_num
  rw [he, p32, p64]
  rw [p32] at hhi hlo
  refine ⟨by omega, by omega, by omega, s.next_u64_snd⟩

/-- C10: the internal single-byte draw always returns a value at most 255, so
in `next_u32` the four shifted components occupy disjoint byte lanes: each
shifted component stays below `2 ^ 32` (no overflow in the 32-bit shifts) and
their bitwise OR — which is what `next_u32` returns — equals their sum. -/
theorem next_byte_bounded_and_or_is_add (s : BufRng) :
    s.next.1 ≤ 255 ∧
    s.next.1 <<< 24 < 2 ^ 32 ∧
    s.next.2.next.1 <<< 16 < 2 ^ 32 ∧
    s.next.2.next.2.next.1 <<< 8 < 2 ^ 32 ∧
    s.next.2.next.2.next.2.next.1 < 2 ^ 32 ∧
    (s.next.1 <<< 24) ||| (s.next.2.next.1 <<< 16) |||
        (s.next.2.next.2.next.1 <<< 8) ||| s.next.2.next.2.next.2.next.1
      = s.next.1 * 2 ^ 24 + s.next.2.next.1 * 2 ^ 16 +
        s.next.2.next.2.next.1 * 2 ^ 8 + s.next.2.next.2.next.2.next.1 ∧
    s.next_u32.1 = s.next.1 * 2 ^ 24 + s.next.2.next.1 * 2 ^ 16 +
      s.next.2.next.2.next.1 * 2 ^ 8 + s.next.2.next.2.next.2.next.1 := by
  have ha := s.next_fst_le
  have hb := s.next.2.next_fst_le
  have hc := s.next.2.next.2.next_fst_le
  have hd := s.next.2.next.2.next.2.next_fst_le
  have hsum := s.next_u32_fst_eq_sum
  have hor : (s.next.1 <<< 24) ||| (s.next.2.next.1 <<< 16) |||
      (s.next.2.next.2.next.1 <<< 8) ||| s.next.2.next.2.next.2.next.1
      = s.next.1 * 2 ^ 24 + s.next.2.next.1 * 2 ^ 16 +
        s.next.2.next.2.next.1 * 2 ^ 8 + s.next.2.next.2.next.2.next.1 := by
    rw [← s.next_u32_fst]
    exact hsum
  refine ⟨ha, ?_, ?_, ?_, by omega, hor, hsum⟩ <;>
    rw [Nat.shiftLeft_eq] <;> omega

/-! ## Equations for the bulk fill -/

theorem BufRng.fill_bytes_zero (s : BufRng) : s.fill_bytes 0 = ([], s) := by
  unfold BufRng.fill_bytes
  simp

theorem BufRng.fill_bytes_small (s : BufRng) {n : Nat} (h1 : n ≠ 0) (h2 : n ≤ 4) :
    s.fill_bytes n = ((toBytesBE s.next_u32.1).take n, s.next_u32.2) := by
  unfold BufRng.fill_bytes
  simp [h1, h2]

theorem BufRng.fill_bytes_large (s : BufRng) {n : Nat} (h : 4 < n) :
    s.fill_bytes n = (toBytesBE s.next_u32.1 ++ (s.next_u32.2.fill_bytes (n - 4)).1,
      (s.next_u32.2.fill_bytes (n - 4)).2) := by
  have h0 : ¬ n = 0 := by omega
  have h4 : ¬ n ≤ 4 := by omega
  conv_lhs => rw [BufRng.fill_bytes]
  simp [h0, h4]

/-- The byte stream obtained from `k` consecutive 32-bit draws, each
decomposed big-endian into its 4 bytes. -/
def BufRng.drawBytes (s : BufRng) : Nat → List Nat
  | 0 => []
  | k + 1 => toBytesBE s.next_u32.1 ++ s.next_u32.2.drawBytes k

theorem BufRng.fill_bytes_fst_eq (n : Nat) :
    ∀ s : BufRng, (s.fill_bytes n).1 = (s.drawBytes ((n + 3) / 4)).take n := by
  induction n using Nat.strong_induction_on with
  | _ n ih =>
    intro s
    rcases Nat.eq_zero_or_pos n with h0 | h0
    · subst h0
      simp [s.fill_bytes_zero, BufRng.drawBytes]
    · rcases le_or_lt n 4 with h4 | h4
      · rw [s.fill_bytes_small (by omega) h4]
        have hq : (n + 3) / 4 = 0 + 1 := by omega
        rw [hq]
        simp [BufRng.drawBytes]
      · rw [s.fill_bytes_large h4]
        have hq : (n + 3) / 4 = (n - 4 + 3) / 4 + 1 := by omega
        rw [hq]
        simp only [BufRng.drawBytes]
        rw [ih (n - 4) (by omega) s.next_u32.2,
          List.take_append_eq_append_take]
        have hlen : (toBytesBE s.next_u32.1).length = 4 := rfl
        rw [hlen, List.take_of_length_le (by omega : (toBytesBE s.next_u32.1).length ≤ n)]

/-! ## Claim theorems: bulk fill -/

/-- C3: `fill_bytes` into a destination of length `n` writes the sequence
obtained by decomposing consecutive 32-bit draws into their 4 bytes in the
same big-endian order used to build each draw, truncated to `n` bytes; in
particular, with buffer `[1,2,3,4,5,6,7,8]` and a 6-byte destination it
yields `[1,2,3,4,5,6]`. -/
theorem fill_bytes_is_truncated_draw_stream :
    (∀ (s : BufRng) (n : Nat),
      (s.fill_bytes n).1 = (s.drawBytes ((n + 3) / 4)).take n) ∧
    ((BufRng.new [1, 2, 3, 4, 5, 6, 7, 8]).fill_bytes 6).1 = [1, 2, 3, 4, 5, 6] := by
  constructor
  · intro s n
    exact BufRng.fill_bytes_fst_eq n s
  · rw [BufRng.fill_bytes_fst_eq]
    decide

/-- C4: for every buffer of length less than 4, the first call to `next_u32`
treats the missing trailing bytes as zero; e.g. for buffer `[1, 2]` it
returns `(1 <<< 24) ||| (2 <<< 16) ||| 0 ||| 0`. -/
theorem short_buffer_pads_with_zero :
    (∀ l : List (Fin 256), l.length < 4 →
      (BufRng.new l).next_u32.1 =
        ((l.getD 0 0).val <<< 24) ||| ((l.getD 1 0).val <<< 16) |||
          ((l.getD 2 0).val <<< 8) ||| (l.getD 3 0).val) ∧
    (BufRng.new [1, 2]).next_u32.1 = (1 <<< 24) ||| (2 <<< 16) ||| 0 ||| 0 := by
  constructor
  · intro l hl
    rcases l with _ | ⟨a, _ | ⟨b, _ | ⟨c, _ | ⟨d, t⟩⟩⟩⟩
    · simp [BufRng.new, BufRng.next_u32, BufRng.next]
    · simp [BufRng.new, BufRng.next_u32, BufRng.next]
    · simp [BufRng.new, BufRng.next_u32, BufRng.next]
    · simp [BufRng.new, BufRng.next_u32, BufRng.next]
    · simp at hl
      omega
  · decide

/-- Witness for C4 at the concrete buffer `[1]`. -/
theorem short_buffer_pads_with_zero_witness :
    ([1] : List (Fin 256)).length < 4 ∧
    (BufRng.new [1]).next_u32.1 =
      ((([1] : List (Fin 256)).getD 0 0).val <<< 24) |||
        ((([1] : List (Fin 256)).getD 1 0).val <<< 16) |||
        ((([1] : List (Fin 256)).getD 2 0).val <<< 8) |||
        (([1] : List (Fin 256)).getD 3 0).val :=
  ⟨by decide, short_buffer_pads_with_zero.1 [1] (by decide)⟩

/-! ## Exhaustion lemmas -/

theorem BufRng.next_u32_exhausted (s : BufRng) (h : s.exhausted) :
    s.next_u32 = (0, s) := by
  have e := s.next_eq_of_ge h
  have h1 : s.next_u32.1 = 0 := by
    rw [s.next_u32_fst]
    simp [e]
  have h2 : s.next_u32.2 = s := by
    rw [s.next_u32_snd]
    simp [e]
  exact Prod.ext h1 h2

theorem BufRng.next_u64_exhausted (s : BufRng) (h : s.exhausted) :
    s.next_u64 = (0, s) := by
  have e := s.next_u32_exhausted h
  have h1 : s.next_u64.1 = 0 := by
    rw [s.next_u64_fst]
    simp [e]
  have h2 : s.next_u64.2 = s := by
    rw [s.next_u64_snd]
    simp [e]
  exact Prod.ext h1 h2

theorem BufRng.fill_bytes_exhausted (n : Nat) :
    ∀ s : BufRng, s.exhausted → s.fill_bytes n = (List.replicate n 0, s) := by
  induction n using Nat.strong_induction_on with
  | _ n ih =>
    intro s h
    have e := s.next_u32_exhausted h
    rcases Nat.eq_zero_or_pos n with h0 | h0
    · subst h0
      simp [s.fill_bytes_zero]
    · rcases le_or_lt n 4 with h4 | h4
      · rw [s.fill_bytes_small (by omega) h4, e]
        dsimp only
        rw [Prod.ext_iff]
        refine ⟨?_, rfl⟩
        dsimp only
        interval_cases n <;> decide
      · rw [s.fill_bytes_large h4, e]
        dsimp only
        have ihr := ih (n - 4) (by omega) s h
        rw [ihr]
        dsimp only
        rw [Prod.ext_iff]
        refine ⟨?_, rfl⟩
        dsimp only
        have hb : toBytesBE 0 = List.replicate 4 0 := by decide
        rw [hb, ← List.replicate_add]
        congr 1
        omega

theorem BufRng.step_tryFill (s : BufRng) (n : Nat) :
    s.step (Op.tryFill n) = s.fill_bytes n := rfl

theorem BufRng.step_exhausted (s : BufRng) (h : s.exhausted) (op : Op) :
    (∀ x ∈ (s.step op).1, x = 0) ∧ (s.step op).2 = s := by
  cases op with
  | u32 =>
    have e := s.next_u32_exhausted h
    constructor
    · intro x hx
      simp only [BufRng.step, e] at hx
      simpa using hx
    · simp [BufRng.step, e]
  | u64 =>
    have e := s.next_u64_exhausted h
    constructor
    · intro x hx
      simp only [BufRng.step, e] at hx
      simpa using hx
    · simp [BufRng.step, e]
  | fill n =>
    have e := BufRng.fill_bytes_exhausted n s h
    constructor
    · intro x hx
      simp only [BufRng.step, e] at hx
      exact List.eq_of_mem_replicate hx
    · simp [BufRng.step, e]
  | tryFill n =>
    have e := BufRng.fill_bytes_exhausted n s h
    constructor
    · intro x hx
      rw [s.step_tryFill, e] at hx
      exact List.eq_of_mem_replicate hx
    · rw [s.step_tryFill, e]

theorem BufRng.run_nil (s : BufRng) : s.run [] = ([], s) := rfl

theorem BufRng.run_cons (s : BufRng) (op : Op) (ops : List Op) :
    s.run (op :: ops) = ((s.step op).1 :: ((s.step op).2.run ops).1,
      ((s.step op).2.run ops).2) := by
  simp only [BufRng.run]

/-! ## Claim theorems: exhaustion and the fallible fill -/

/-- C5: exhaustion is sticky and permanent.  From any exhausted state
(including the one a fresh empty buffer starts in), every subsequent sequence
of draws of any kind (`next_u32`, `next_u64`, `fill_bytes`, `try_fill_bytes`)
yields only all-zero output and leaves the state unchanged, for any number of
further calls. -/
theorem exhausted_yields_zero_forever (s : BufRng) (h : s.exhausted) (ops : List Op) :
    (∀ out ∈ (s.run ops).1, ∀ x ∈ out, x = 0) ∧ (s.run ops).2 = s := by
  induction ops with
  | nil => simp [BufRng.run_nil]
  | cons op ops ih =>
    have hs := s.step_exhausted h op
    rw [BufRng.run_cons, hs.2]
    constructor
    · intro out hout
      simp only [List.mem_cons] at hout
      rcases hout with rfl | hout
      · exact hs.1
      · exact ih.1 out hout
    · exact ih.2

/-- Witness for C5: the empty buffer is exhausted from the start, and a
four-operation run from it yields only zeros and does not move the state. -/
theorem exhausted_yields_zero_forever_witness :
    (BufRng.new []).exhausted ∧
    ((∀ out ∈ ((BufRng.new []).run [Op.u32, Op.u64, Op.fill 5, Op.tryFill 3]).1,
        ∀ x ∈ out, x = 0) ∧
      ((BufRng.new []).run [Op.u32, Op.u64, Op.fill 5, Op.tryFill 3]).2 = BufRng.new []) :=
  ⟨by decide, exhausted_yields_zero_forever (BufRng.new []) (by decide)
    [Op.u32, Op.u64, Op.fill 5, Op.tryFill 3]⟩

/-- C6: `try_fill_bytes` always returns `Ok` — carrying exactly the bytes and
successor state that `fill_bytes` produces — so it never has a failure
outcome and has the same effect as `fill_bytes`. -/
theorem try_fill_bytes_always_ok (s : BufRng) (n : Nat) :
    s.try_fill_bytes n = Except.ok (s.fill_bytes n) := rfl

/-! ## Cursor invariants through every operation -/

theorem BufRng.next_u64_data (s : BufRng) : s.next_u64.2.data = s.data := by
  rw [s.next_u64_snd, BufRng.next_u32_data, BufRng.next_u32_data]

theorem BufRng.next_u64_pos_mono (s : BufRng) : s.pos ≤ s.next_u64.2.pos := by
  rw [s.next_u64_snd]
  exact le_trans s.next_u32_pos_mono (BufRng.next_u32_pos_mono _)

theorem BufRng.next_u64_pos_le (s : BufRng) (h : s.pos ≤ s.data.length) :
    s.next_u64.2.pos ≤ s.data.length := by
  rw [s.next_u64_snd]
  have h1 := s.next_u32_pos_le h
  rw [← s.next_u32_data] at h1
  have h2 := s.next_u32.2.next_u32_pos_le h1
  rw [s.next_u32_data] at h2
  exact h2

theorem BufRng.fill_bytes_data (n : Nat) :
    ∀ s : BufRng, (s.fill_bytes n).2.data = s.data := by
  induction n using Nat.strong_induction_on with
  | _ n ih =>
    intro s
    rcases Nat.eq_zero_or_pos n with h0 | h0
    · subst h0
      rw [s.fill_bytes_zero]
    · rcases le_or_lt n 4 with h4 | h4
      · rw [s.fill_bytes_small (by omega) h4]
        exact s.next_u32_data
      · rw [s.fill_bytes_large h4]
        dsimp only
        rw [ih (n - 4) (by omega) s.next_u32.2]
        exact s.next_u32_data

theorem BufRng.fill_bytes_pos_mono (n : Nat) :
    ∀ s : BufRng, s.pos ≤ (s.fill_bytes n).2.pos := by
  induction n using Nat.strong_induction_on with
  | _ n ih =>
    intro s
    rcases Nat.eq_zero_or_pos n with h0 | h0
    · subst h0
      rw [s.fill_bytes_zero]
    · rcases le_or_lt n 4 with h4 | h4
      · rw [s.fill_bytes_small (by omega) h4]
        exact s.next_u32_pos_mono
      · rw [s.fill_bytes_large h4]
        dsimp only
        exact le_trans s.next_u32_pos_mono (ih (n - 4) (by omega) s.next_u32.2)

theorem BufRng.fill_bytes_pos_le (n : Nat) :
    ∀ s : BufRng, s.pos ≤ s.data.length → (s.fill_bytes n).2.pos ≤ s.data.length := by
  induction n using Nat.strong_induction_on with
  | _ n ih =>
    intro s h
    rcases Nat.eq_zero_or_pos n with h0 | h0
    · subst h0
      rw [s.fill_bytes_zero]
      exact h
    · rcases le_or_lt n 4 with h4 | h4
      · rw [s.fill_bytes_small (by omega) h4]
        exact s.next_u32_pos_le h
      · rw [s.fill_bytes_large h4]
        dsimp only
        have h1 := s.next_u32_pos_le h
        rw [← s.next_u32_data] at h1
        have h2 := ih (n - 4) (by omega) s.next_u32.2 h1
        rw [s.next_u32_data] at h2
        exact h2

theorem BufRng.step_u32 (s : BufRng) :
    s.step Op.u32 = ([s.next_u32.1], s.next_u32.2) := by
  simp only [BufRng.step]

theorem BufRng.step_u64 (s : BufRng) :
    s.step Op.u64 = ([s.next_u64.1], s.next_u64.2) := by
  simp only [BufRng.step]

theorem BufRng.step_fill (s : BufRng) (n : Nat) :
    s.step (Op.fill n) = s.fill_bytes n := by
  simp only [BufRng.step]

theorem BufRng.step_data (s : BufRng) (op : Op) : (s.step op).2.data = s.data := by
  cases op with
  | u32 => rw [s.step_u32]; exact s.next_u32_data
  | u64 => rw [s.step_u64]; dsimp only; exact s.next_u64_data
  | fill n => rw [s.step_fill]; exact BufRng.fill_bytes_data n s
  | tryFill n => rw [s.step_tryFill]; exact BufRng.fill_bytes_data n s

theorem BufRng.step_pos_mono (s : BufRng) (op : Op) : s.pos ≤ (s.step op).2.pos := by
  cases op with
  | u32 => rw [s.step_u32]; exact s.next_u32_pos_mono
  | u64 => rw [s.step_u64]; dsimp only; exact s.next_u64_pos_mono
  | fill n => rw [s.step_fill]; exact BufRng.fill_bytes_pos_mono n s
  | tryFill n => rw [s.step_tryFill]; exact BufRng.fill_bytes_pos_mono n s

theorem BufRng.step_pos_le (s : BufRng) (op : Op) (h : s.pos ≤ s.data.length) :
    (s.step op).2.pos ≤ s.data.length := by
  cases op with
  | u32 => rw [s.step_u32]; exact s.next_u32_pos_le h
  | u64 => rw [s.step_u64]; dsimp only; exact s.next_u64_pos_le h
  | fill n => rw [s.step_fill]; exact BufRng.fill_bytes_pos_le n s h
  | tryFill n => rw [s.step_tryFill]; exact BufRng.fill_bytes_pos_le n s h

theorem BufRng.run_data (ops : List Op) :
    ∀ s : BufRng, (s.run ops).2.data = s.data := by
  induction ops with
  | nil => intro s; rfl
  | cons op ops ih =>
    intro s
    rw [BufRng.run_cons]
    dsimp only
    rw [ih (s.step op).2, s.step_data]

theorem BufRng.run_pos_mono (ops : List Op) :
    ∀ s : BufRng, s.pos ≤ (s.run ops).2.pos := by
  induction ops with
  | nil => intro s; exact le_refl _
  | cons op ops ih =>
    intro s
    rw [BufRng.run_cons]
    dsimp only
    exact le_trans (s.step_pos_mono op) (ih (s.step op).2)

theorem BufRng.run_pos_le (ops : List Op) :
    ∀ s : BufRng, s.pos ≤ s.data.length → (s.run ops).2.pos ≤ s.data.length := by
  induction ops with
  | nil => intro s h; exact h
  | cons op ops ih =>
    intro s h
    rw [BufRng.run_cons]
    dsimp only
    have h1 := s.step_pos_le op h
    rw [← s.step_data op] at h1
    have h2 := ih (s.step op).2 h1
    rw [s.step_data op] at h2
    exact h2

theorem BufRng.run_append_snd (l1 l2 : List Op) :
    ∀ s : BufRng, (s.run (l1 ++ l2)).2 = ((s.run l1).2.run l2).2 := by
  induction l1 with
  | nil => intro s; rfl
  | cons op l1 ih =>
    intro s
    rw [List.cons_append, BufRng.run_cons, BufRng.run_cons]
    dsimp only
    rw [ih (s.step op).2]

/-! ## Claim theorems: cursor invariants, determinism, frame effect -/

/-- C7: for every buffer and every sequence of interface operations, the
cursor is monotonically non-decreasing (extending the run never rewinds it)
and never advances past the end of the source buffer. -/
theorem cursor_monotone_and_bounded (data : List (Fin 256)) (ops more : List Op) :
    ((BufRng.new data).run ops).2.pos ≤ ((BufRng.new data).run (ops ++ more)).2.pos ∧
    ((BufRng.new data).run ops).2.pos ≤ data.length := by
  constructor
  · rw [BufRng.run_append_snd ops more (BufRng.new data)]
    exact BufRng.run_pos_mono more ((BufRng.new data).run ops).2
  · exact BufRng.run_pos_le ops (BufRng.new data) (Nat.zero_le _)

/-- C8: determinism — two generators constructed from buffers with equal byte
contents, subjected to the same sequence of draw operations, produce identical
outputs and identical final cursor positions. -/
theorem run_deterministic (d1 d2 : List (Fin 256)) (ops : List Op) (h : d1 = d2) :
    ((BufRng.new d1).run ops).1 = ((BufRng.new d2).run ops).1 ∧
    ((BufRng.new d1).run ops).2.pos = ((BufRng.new d2).run ops).2.pos := by
  subst h
  exact ⟨rfl, rfl⟩

/-- Witness for C8 at buffer `[1, 2]` and one `next_u32` draw. -/
theorem run_deterministic_witness :
    ((BufRng.new [1, 2]).run [Op.u32]).1 = ((BufRng.new [1, 2]).run [Op.u32]).1 ∧
    ((BufRng.new [1, 2]).run [Op.u32]).2.pos = ((BufRng.new [1, 2]).run [Op.u32]).2.pos :=
  run_deterministic [1, 2] [1, 2] [Op.u32] rfl

/-- C9: each call to `next_u32` advances the cursor by exactly
`min 4 (number of unread bytes remaining)`: four bytes when at least four
remain, and all remaining bytes (never more) otherwise. -/
theorem next_u32_advances_min_four (s : BufRng) (h : s.pos ≤ s.data.length) :
    s.next_u32.2.pos = s.pos + min 4 (s.data.length - s.pos) := by
  rw [s.next_u32_snd]
  simp only [BufRng.next_pos, BufRng.next_data]
  split_ifs <;> omega

/-- Witness for C9 at the two-byte buffer `[1, 2]` (cursor moves by
`min 4 2 = 2`). -/
theorem next_u32_advances_min_four_witness :
    (BufRng.new [1, 2]).pos ≤ (BufRng.new [1, 2]).data.length ∧
    (BufRng.new [1, 2]).next_u32.2.pos
      = (BufRng.new [1, 2]).pos +
        min 4 ((BufRng.new [1, 2]).data.length - (BufRng.new [1, 2]).pos) :=
  ⟨by decide, next_u32_advances_min_four (BufRng.new [1, 2]) (by decide)⟩
